import Mathlib

set_option maxHeartbeats 1000000

/-!
Shallow embedding of the yapsap inference core: the first-order term model,
Robinson unification (`most_general_unifier`), positive factoring
(`factoring`, `all_possible_factors`) and binary paramodulation
(`paramodulation`, `all_paramodulants_from_clause`,
`all_paramodulants_from_list`), together with the substitution and
term-addressing utilities they depend on.
-/

/-- First-order propositions of the term model: a variable leaf, a function
node (a constant when the argument list is empty) or a predicate atom, each
carrying an integer symbol index.  This is the closed tagged-variant reading
of the source's `Variable | Function | Predicate` union. -/
inductive Proposition where
  | Var : Nat → Proposition
  | Func : Nat → List Proposition → Proposition
  | Pred : Nat → List Proposition → Proposition
deriving Repr, Inhabited

/-- Structural induction principle for `Proposition` exposing a membership
hypothesis for argument lists (the nested-inductive recursor is unwieldy,
so this is derived from strong induction on `sizeOf`). -/
theorem Proposition.myInd (P : Proposition → Prop)
    (hv : ∀ i, P (.Var i))
    (hf : ∀ i args, (∀ a ∈ args, P a) → P (.Func i args))
    (hp : ∀ i args, (∀ a ∈ args, P a) → P (.Pred i args)) :
    ∀ p, P p := by
  have key : ∀ (n : Nat) (p : Proposition), sizeOf p ≤ n → P p := by
    intro n
    induction n with
    | zero =>
      intro p h
      cases p <;> simp_arith at h
    | succ n ih =>
      intro p h
      cases p with
      | Var i => exact hv i
      | Func i args =>
        refine hf i args (fun a ha => ih a ?_)
        have h1 := List.sizeOf_lt_of_mem ha
        simp_arith at h
        omega
      | Pred i args =>
        refine hp i args (fun a ha => ih a ?_)
        have h1 := List.sizeOf_lt_of_mem ha
        simp_arith at h
        omega
  exact fun p => key (sizeOf p) p le_rfl

mutual
/-- Boolean structural equality of propositions (value equality of the
source's dataclasses). -/
def Proposition.beqP : Proposition → Proposition → Bool
  | .Var i, .Var j => i == j
  | .Func i as, .Func j bs => i == j && Proposition.beqPList as bs
  | .Pred i as, .Pred j bs => i == j && Proposition.beqPList as bs
  | _, _ => false

/-- Companion of `Proposition.beqP` for argument lists. -/
def Proposition.beqPList : List Proposition → List Proposition → Bool
  | [], [] => true
  | a :: as, b :: bs => Proposition.beqP a b && Proposition.beqPList as bs
  | _, _ => false
end

theorem Proposition.beqP_iff : ∀ a b : Proposition, Proposition.beqP a b = true ↔ a = b := by
  have main : ∀ a : Proposition, ∀ b : Proposition, Proposition.beqP a b = true ↔ a = b := by
    intro a
    induction a using Proposition.myInd with
    | hv i =>
      intro b
      cases b <;> simp [Proposition.beqP]
    | hf i args ih =>
      intro b
      cases b with
      | Var j => simp [Proposition.beqP]
      | Pred j bs => simp [Proposition.beqP]
      | Func j bs =>
        simp only [Proposition.beqP, Bool.and_eq_true, beq_iff_eq, Proposition.Func.injEq]
        constructor
        · rintro ⟨rfl, h2⟩
          refine ⟨rfl, ?_⟩
          clear i
          induction args generalizing bs with
          | nil => cases bs <;> simp_all [Proposition.beqPList]
          | cons a as ihl =>
            cases bs with
            | nil => simp [Proposition.beqPList] at h2
            | cons b bs =>
              simp only [Proposition.beqPList, Bool.and_eq_true] at h2
              have ha := (ih a (by simp) b).mp h2.1
              have hrest := ihl (fun x hx => ih x (by simp [hx])) bs h2.2
              simp [ha, hrest]
        · rintro ⟨rfl, rfl⟩
          refine ⟨rfl, ?_⟩
          clear i
          induction args with
          | nil => simp [Proposition.beqPList]
          | cons a as ihl =>
            simp only [Proposition.beqPList, Bool.and_eq_true]
            exact ⟨(ih a (by simp) a).mpr rfl, ihl (fun x hx => ih x (by simp [hx]))⟩
    | hp i args ih =>
      intro b
      cases b with
      | Var j => simp [Proposition.beqP]
      | Func j bs => simp [Proposition.beqP]
      | Pred j bs =>
        simp only [Proposition.beqP, Bool.and_eq_true, beq_iff_eq, Proposition.Pred.injEq]
        constructor
        · rintro ⟨rfl, h2⟩
          refine ⟨rfl, ?_⟩
          clear i
          induction args generalizing bs with
          | nil => cases bs <;> simp_all [Proposition.beqPList]
          | cons a as ihl =>
            cases bs with
            | nil => simp [Proposition.beqPList] at h2
            | cons b bs =>
              simp only [Proposition.beqPList, Bool.and_eq_true] at h2
              have ha := (ih a (by simp) b).mp h2.1
              have hrest := ihl (fun x hx => ih x (by simp [hx])) bs h2.2
              simp [ha, hrest]
        · rintro ⟨rfl, rfl⟩
          refine ⟨rfl, ?_⟩
          clear i
          induction args with
          | nil => simp [Proposition.beqPList]
          | cons a as ihl =>
            simp only [Proposition.beqPList, Bool.and_eq_true]
            exact ⟨(ih a (by simp) a).mpr rfl, ihl (fun x hx => ih x (by simp [hx]))⟩
  exact main

instance : DecidableEq Proposition :=
  fun a b => decidable_of_iff _ (Proposition.beqP_iff a b)

/-- Symbol index of a proposition node (the `.index` attribute access of the
source). -/
def Proposition.index : Proposition → Nat
  | .Var i => i
  | .Func i _ => i
  | .Pred i _ => i

/-- Argument list of a proposition node (the `.arguments` attribute access of
the source; a variable carries none). -/
def Proposition.arguments : Proposition → List Proposition
  | .Var _ => []
  | .Func _ args => args
  | .Pred _ args => args

mutual
/-- Modelled from the spec: `occurs(variable, term)` of the unshown
`yapsap.utils` module (source name `is_subproposition`) — true iff the
variable appears anywhere in the proposition's structure, including nested
arguments. -/
def is_subproposition (v : Nat) : Proposition → Bool
  | .Var i => i = v
  | .Func _ args => is_subproposition_list v args
  | .Pred _ args => is_subproposition_list v args

/-- Companion of `is_subproposition` for argument lists. -/
def is_subproposition_list (v : Nat) : List Proposition → Bool
  | [] => false
  | a :: as => is_subproposition v a || is_subproposition_list v as
end

mutual
/-- Modelled from the spec: `size` (source name `proposition_length`) of the
unshown `yapsap.utils` module — the node count of the proposition tree. -/
def proposition_length : Proposition → Nat
  | .Var _ => 1
  | .Func _ args => 1 + proposition_length_list args
  | .Pred _ args => 1 + proposition_length_list args

/-- Companion of `proposition_length` for argument lists. -/
def proposition_length_list : List Proposition → Nat
  | [] => 0
  | a :: as => proposition_length a + proposition_length_list as
end

mutual
/-- Indices of all variables occurring in a proposition (proof apparatus for
stating the spec's "number of distinct variables" measure). -/
def varsOf : Proposition → List Nat
  | .Var i => [i]
  | .Func _ args => varsOfList args
  | .Pred _ args => varsOfList args

/-- Companion of `varsOf` for argument lists. -/
def varsOfList : List Proposition → List Nat
  | [] => []
  | a :: as => varsOf a ++ varsOfList as
end

/-- Substitution: one binding of a variable (identified by its index) to a
term.  Modelled from the spec for the unshown `yapsap.substitution`
module. -/
structure Substitution where
  variableIndex : Nat
  term : Proposition
deriving Repr, DecidableEq

mutual
/-- Modelled from the spec: applying a substitution structurally replaces
every occurrence of the bound variable by the bound term. -/
def Substitution.apply (s : Substitution) : Proposition → Proposition
  | .Var i => if i = s.variableIndex then s.term else .Var i
  | .Func i args => .Func i (Substitution.apply_list s args)
  | .Pred i args => .Pred i (Substitution.apply_list s args)

/-- Companion of `Substitution.apply` for argument lists. -/
def Substitution.apply_list (s : Substitution) : List Proposition → List Proposition
  | [] => []
  | a :: as => Substitution.apply s a :: Substitution.apply_list s as
end

/-- Literal: a signed atomic formula. -/
structure Literal where
  negated : Bool
  atom : Proposition
deriving Repr, DecidableEq, Inhabited

/-- Clause: a literal collection plus provenance metadata (label, parent
labels, inference-rule name), as in the external grammar module. -/
structure Clause where
  literals : List Literal
  label : Option String
  inference_parents : Option (List (Option String))
  inference_rule : Option String
deriving Repr, DecidableEq, Inhabited

/-- Modelled from the spec: Clause construction (the external grammar
module, specified at its interface) collapses duplicate literals by
structural equality. -/
def mkClause (lits : List Literal) (label : Option String)
    (parents : Option (List (Option String))) (rule : Option String) : Clause :=
  ⟨lits.dedup, label, parents, rule⟩

/-- Modelled from the spec: `substitute_in_clause` of the unshown
`yapsap.substitution` module applies the substitution to every literal's
atom and rebuilds the clause, preserving provenance fields. -/
def Substitution.substitute_in_clause (s : Substitution) (c : Clause) : Clause :=
  mkClause (c.literals.map (fun l => ⟨l.negated, s.apply l.atom⟩))
    c.label c.inference_parents c.inference_rule

/-- Error kinds of the embedded core, mirroring the Python exception classes
(`NonUnifiableError`, `ValueError` for invalid rule application,
`TermSelfReplace`, `IndexError`). -/
inductive YError where
  | nonUnifiable : Proposition → Proposition → YError
  | invalidRuleApplication : YError
  | termSelfReplace : YError
  | indexError : YError
deriving Repr, DecidableEq

/-- Modelled from the spec: the reserved predicate index denoting the
equality symbol of the external grammar module. -/
def EQUALITY_SYMBOL_ID : Nat := 0

mutual
/-- Modelled from the spec: `subtermAt` (source name `subterm_by_index`) of
the unshown `yapsap.utils` module — the sub-term at a pre-order traversal
position, position 0 being the whole proposition; `none` when the index is
out of range. -/
def subterm_by_index (p : Proposition) (n : Nat) : Option Proposition :=
  match n with
  | 0 => some p
  | m + 1 =>
    match p with
    | .Var _ => none
    | .Func _ args => subterm_list args m
    | .Pred _ args => subterm_list args m

/-- Companion of `subterm_by_index` for argument lists. -/
def subterm_list (args : List Proposition) (n : Nat) : Option Proposition :=
  match args with
  | [] => none
  | a :: as =>
    if n < proposition_length a then subterm_by_index a n
    else subterm_list as (n - proposition_length a)
end

mutual
/-- Modelled from the spec: `replaceAt` (source name
`replace_subterm_by_index`) of the unshown `yapsap.utils` module — replaces
the single sub-term at the addressed pre-order position, signalling
`termSelfReplace` when the replacement is structurally identical to the
sub-term being replaced and `indexError` when the position is out of
range. -/
def replace_subterm_by_index (p : Proposition) (n : Nat) (r : Proposition) :
    Except YError Proposition :=
  match n with
  | 0 => if r = p then .error .termSelfReplace else .ok r
  | m + 1 =>
    match p with
    | .Var _ => .error .indexError
    | .Func i args =>
      match replace_list args m r with
      | .error e => .error e
      | .ok newArgs => .ok (.Func i newArgs)
    | .Pred i args =>
      match replace_list args m r with
      | .error e => .error e
      | .ok newArgs => .ok (.Pred i newArgs)

/-- Companion of `replace_subterm_by_index` for argument lists. -/
def replace_list (args : List Proposition) (n : Nat) (r : Proposition) :
    Except YError (List Proposition) :=
  match args with
  | [] => .error .indexError
  | a :: as =>
    if n < proposition_length a then
      match replace_subterm_by_index a n r with
      | .error e => .error e
      | .ok a' => .ok (a' :: as)
    else
      match replace_list as (n - proposition_length a) r with
      | .error e => .error e
      | .ok as' => .ok (a :: as')
end

mutual
/-- Disagreement set of two propositions (`_get_disagreement`): `none` when
they fully agree, otherwise the first pair of disagreeing sub-terms along a
left-to-right depth-first walk. -/
def get_disagreement (one two : Proposition) : Option (Proposition × Proposition) :=
  match one, two with
  | .Var i, .Var j => if i = j then none else some (.Var i, .Var j)
  | .Func i as, .Func j bs =>
    if i = j ∧ as.length = bs.length then get_disagreement_list as bs
    else some (.Func i as, .Func j bs)
  | .Pred i as, .Pred j bs =>
    if i = j ∧ as.length = bs.length then get_disagreement_list as bs
    else some (.Pred i as, .Pred j bs)
  | one, two => some (one, two)

/-- Companion of `get_disagreement`: first disagreement of two argument
lists, walked in lock-step. -/
def get_disagreement_list (as bs : List Proposition) :
    Option (Proposition × Proposition) :=
  match as, bs with
  | [], _ => none
  | _, [] => none
  | a :: as, b :: bs =>
    match get_disagreement a b with
    | some d => some d
    | none => get_disagreement_list as bs
end

/-- Candidate binding from a disagreement pair (`_propose_substitution`):
bind a variable side to the other side, failing as non-unifiable when
neither side is a bindable variable or when the occurs-check rejects the
binding.  The error carries the first two propositions of the set being
unified, as in the source. -/
def propose_substitution (d0 d1 p0 p1 : Proposition) : Except YError Substitution :=
  let sub? : Option Substitution :=
    match d0, d1 with
    | .Var i, .Var _ => some ⟨i, d1⟩
    | .Var i, .Func _ _ => some ⟨i, d1⟩
    | .Func _ _, .Var j => some ⟨j, d0⟩
    | _, _ => none
  match sub? with
  | none => .error (.nonUnifiable p0 p1)
  | some s =>
    if is_subproposition s.variableIndex s.term then .error (.nonUnifiable p0 p1)
    else .ok s

/-- Fuel-indexed body of `most_general_unifier`, one fuel unit per recursive
call of the source function; `none` means the fuel ran out (which
`mguFuel_total_aux` below shows never happens at `unifierFuel`). -/
def mguFuel : Nat → List Proposition → List Substitution →
    Option (Except YError (List Substitution))
  | 0, _, _ => none
  | fuel + 1, props, subs =>
    match props with
    | [_] => some (.ok subs)
    | [] => some (.error .indexError)
    | p0 :: p1 :: _ =>
      match get_disagreement p0 p1 with
      | none => some (.ok [])
      | some (d0, d1) =>
        match propose_substitution d0 d1 p0 p1 with
        | .error e => some (.error e)
        | .ok s => mguFuel fuel ((props.map s.apply).dedup) (subs ++ [s])

/-- Number of distinct variable indices occurring across a proposition
set — the termination measure named by the spec. -/
def distinctVarCount (props : List Proposition) : Nat :=
  (varsOfList props).dedup.length

/-- Fuel sufficient for `mguFuel` (proved sufficient below). -/
def unifierFuel (props : List Proposition) : Nat :=
  distinctVarCount props + 1

/-- Robinson's unification algorithm (`most_general_unifier`): either an
ordered sequence of substitutions, or the error the source run would raise
(`nonUnifiable`, or `indexError` on the empty input). -/
def most_general_unifier (props : List Proposition) :
    Except YError (List Substitution) :=
  (mguFuel (unifierFuel props) props []).getD (.error .indexError)

/-- Applying every substitution of a unifier in order: the single fold over
the sequence that correct application requires. -/
def foldApply (u : List Substitution) (p : Proposition) : Proposition :=
  u.foldl (fun acc s => s.apply acc) p

/-- Positive factoring rule (`factoring`): fails with
`invalidRuleApplication` (the `ValueError` of the source) on a negated
literal, otherwise unifies the two atoms, builds the clause from the given
clause's literals plus `literal_one` and applies every binding in order. -/
def factoring (given_clause : Clause) (literal_one literal_two : Literal) :
    Except YError Clause :=
  if literal_one.negated || literal_two.negated then .error .invalidRuleApplication
  else
    match most_general_unifier [literal_one.atom, literal_two.atom] with
    | .error e => .error e
    | .ok substitutions =>
      .ok (substitutions.foldl (fun r s => s.substitute_in_clause r)
        (mkClause (given_clause.literals ++ [literal_one]) none none none))

/-- Inner loop of `all_possible_factors` over the candidate index pairs
`(i, j)` with `i < j`: skips negated pairs, collects successful factorings
and swallows only `nonUnifiable`, letting other errors propagate as the
source's uncaught exceptions would. -/
def collectFactors (given_clause : Clause) : List (Nat × Nat) → Except YError (List Clause)
  | [] => .ok []
  | (i, j) :: rest =>
    let literal_one := given_clause.literals.getD i default
    let literal_j := given_clause.literals.getD j default
    if literal_one.negated = false ∧ literal_j.negated = false then
      let a_clause := mkClause
        (given_clause.literals.take i
          ++ ((given_clause.literals.take j).drop (i + 1))
          ++ given_clause.literals.drop (j + 1)) none none none
      match factoring a_clause literal_one literal_j with
      | .ok c =>
        match collectFactors given_clause rest with
        | .error e => .error e
        | .ok cs => .ok (c :: cs)
      | .error (.nonUnifiable _ _) => collectFactors given_clause rest
      | .error e => .error e
    else collectFactors given_clause rest

/-- Ordered pairs `(i, j)` with `i < j < n`, in the loop order of the
source's nested `for` loops. -/
def indexPairs (n : Nat) : List (Nat × Nat) :=
  (List.range n).flatMap (fun i => ((List.range n).filter (fun j => i < j)).map (fun j => (i, j)))

/-- Factoring enumeration (`all_possible_factors`): every unordered pair of
positive-literal positions is attempted, non-unifiable pairs are discarded
and every success is re-tagged with the factoring provenance. -/
def all_possible_factors (given_clause : Clause) : Except YError (List Clause) :=
  match collectFactors given_clause (indexPairs given_clause.literals.length) with
  | .error e => .error e
  | .ok factors =>
    .ok (factors.map (fun factor =>
      mkClause factor.literals none (some [given_clause.label]) (some "factoring")))

/-- Binary paramodulation rule (`paramodulation`): unifies the equality's
left side with the addressed sub-term of `literal_two`'s atom, replaces that
single occurrence by the right side, unions the literals of both clauses
with the rewritten literal (deduplicating as the source's `set` does) and
applies every binding in order. -/
def paramodulation (clause_one : Clause) (literal_one : Proposition × Proposition)
    (clause_two : Clause) (literal_two : Literal) (r_position : Nat) :
    Except YError Clause :=
  match subterm_by_index literal_two.atom r_position with
  | none => .error .indexError
  | some sub =>
    match most_general_unifier [literal_one.1, sub] with
    | .error e => .error e
    | .ok substitutions =>
      match replace_subterm_by_index literal_two.atom r_position literal_one.2 with
      | .error e => .error e
      | .ok new_atom =>
        let new_literals :=
          ((⟨literal_two.negated, new_atom⟩ : Literal)
            :: (clause_one.literals ++ clause_two.literals)).dedup
        .ok (substitutions.foldl (fun r s => s.substitute_in_clause r)
          (mkClause new_literals none none none))

/-- Single paramodulation attempt inside the enumeration: a success yields
one clause, `nonUnifiable` and `termSelfReplace` are swallowed to an empty
contribution, anything else propagates. -/
def tryParamodulation (clause_one : Clause) (st : Proposition × Proposition)
    (clause_two : Clause) (literal_two : Literal) (k : Nat) :
    Except YError (List Clause) :=
  match paramodulation clause_one st clause_two literal_two k with
  | .ok c => .ok [c]
  | .error (.nonUnifiable _ _) => .ok []
  | .error .termSelfReplace => .ok []
  | .error e => .error e

/-- Both orientations of the equality at one sub-term position
(`_equality_symmetry_paramodulation`). -/
def equality_symmetry_paramodulation (clause_one : Clause) (literal_one : Literal)
    (clause_two : Clause) (literal_two : Literal) (k : Nat) :
    Except YError (List Clause) :=
  let arg0 := literal_one.atom.arguments.getD 0 default
  let arg1 := literal_one.atom.arguments.getD 1 default
  match tryParamodulation clause_one (arg0, arg1) clause_two literal_two k with
  | .error e => .error e
  | .ok ps1 =>
    match tryParamodulation clause_one (arg1, arg0) clause_two literal_two k with
    | .error e => .error e
    | .ok ps2 => .ok (ps1 ++ ps2)

/-- Positional loop of `all_paramodulants_from_clause` over the sub-term
positions `k`. -/
def paramodulantsAtPositions (clause_one : Clause) (literal_one : Literal)
    (clause_two : Clause) (literal_two : Literal) :
    List Nat → Except YError (List Clause)
  | [] => .ok []
  | k :: ks =>
    match equality_symmetry_paramodulation clause_one literal_one clause_two literal_two k with
    | .error e => .error e
    | .ok ps =>
      match paramodulantsAtPositions clause_one literal_one clause_two literal_two ks with
      | .error e => .error e
      | .ok rest => .ok (ps ++ rest)

/-- Paramodulant enumeration for one equality literal
(`all_paramodulants_from_clause`): requires a positive binary equality atom
(`invalidRuleApplication`, the source's `ValueError`, otherwise), returns
nothing on a trivial equality, and otherwise attempts every sub-term
position `1 ≤ k < proposition_length` in both equality orientations. -/
def all_paramodulants_from_clause (clause_one : Clause) (literal_one : Literal)
    (clause_two : Clause) (literal_two : Literal) : Except YError (List Clause) :=
  if literal_one.atom.index ≠ EQUALITY_SYMBOL_ID ∨ literal_one.negated = true
      ∨ literal_one.atom.arguments.length ≠ 2 then
    .error .invalidRuleApplication
  else if literal_one.atom.arguments.getD 0 default = literal_one.atom.arguments.getD 1 default then
    .ok []
  else
    paramodulantsAtPositions clause_one literal_one clause_two literal_two
      (List.range' 1 (proposition_length literal_two.atom - 1))

/-- Inner loop of `_get_new_paramodulants` over the given clause's literal
positions `j`, applying `all_paramodulants_from_clause` in both directions
whenever the respective literal is a positive equality. -/
def getNewParamodulantsLoop (clause_one : Clause) (literal_one : Literal)
    (given_clause : Clause) : List Nat → Except YError (List Clause)
  | [] => .ok []
  | j :: js =>
    let literal_two := given_clause.literals.getD j default
    let clause_two := mkClause
      (given_clause.literals.take j ++ given_clause.literals.drop (j + 1)) none none none
    let first : Except YError (List Clause) :=
      if literal_one.negated = false ∧ literal_one.atom.index = EQUALITY_SYMBOL_ID then
        all_paramodulants_from_clause clause_one literal_one clause_two literal_two
      else .ok []
    match first with
    | .error e => .error e
    | .ok ps1 =>
      let second : Except YError (List Clause) :=
        if literal_two.negated = false ∧ literal_two.atom.index = EQUALITY_SYMBOL_ID then
          all_paramodulants_from_clause clause_two literal_two clause_one literal_one
        else .ok []
      match second with
      | .error e => .error e
      | .ok ps2 =>
        match getNewParamodulantsLoop clause_one literal_one given_clause js with
        | .error e => .error e
        | .ok rest => .ok (ps1 ++ ps2 ++ rest)

/-- Helper `_get_new_paramodulants` of the source. -/
def get_new_paramodulants (clause_one : Clause) (literal_one : Literal)
    (given_clause : Clause) : Except YError (List Clause) :=
  getNewParamodulantsLoop clause_one literal_one given_clause
    (List.range given_clause.literals.length)

/-- Loop of `all_paramodulants_from_list` over one processed clause's
literal positions `i`, tagging each batch of new paramodulants with the
paramodulation provenance. -/
def paramodulantsPerLiteral (other_clause given_clause : Clause) :
    List Nat → Except YError (List Clause)
  | [] => .ok []
  | i :: is' =>
    let literal_one := other_clause.literals.getD i default
    let clause_one := mkClause
      (other_clause.literals.take i ++ other_clause.literals.drop (i + 1)) none none none
    match get_new_paramodulants clause_one literal_one given_clause with
    | .error e => .error e
    | .ok ps =>
      match paramodulantsPerLiteral other_clause given_clause is' with
      | .error e => .error e
      | .ok rest =>
        .ok ((ps.map (fun paramodulant =>
          mkClause paramodulant.literals none
            (some [other_clause.label, given_clause.label]) (some "paramodulation"))) ++ rest)

/-- Outer loop of `all_paramodulants_from_list` over the processed
clauses. -/
def paramodulantsPerClause (given_clause : Clause) :
    List Clause → Except YError (List Clause)
  | [] => .ok []
  | other_clause :: rest =>
    match paramodulantsPerLiteral other_clause given_clause
        (List.range other_clause.literals.length) with
    | .error e => .error e
    | .ok ps =>
      match paramodulantsPerClause given_clause rest with
      | .error e => .error e
      | .ok more => .ok (ps ++ more)

/-- Paramodulation enumeration entry point (`all_paramodulants_from_list`). -/
def all_paramodulants_from_list (clauses : List Clause) (given_clause : Clause) :
    Except YError (List Clause) :=
  paramodulantsPerClause given_clause clauses

/-- Processed clause `a = b ∨ X = X` of the documented paramodulation
example, labelled `one` (constants are zero-argument functions). -/
def exampleClauseOne : Clause :=
  mkClause
    [⟨false, .Pred EQUALITY_SYMBOL_ID [.Func 1 [], .Func 2 []]⟩,
     ⟨false, .Pred EQUALITY_SYMBOL_ID [.Var 0, .Var 0]⟩]
    (some "one") none none

/-- Given clause `b = c` of the documented paramodulation example,
labelled `two`. -/
def exampleClauseTwo : Clause :=
  mkClause [⟨false, .Pred EQUALITY_SYMBOL_ID [.Func 2 [], .Func 3 []]⟩]
    (some "two") none none

/-- Membership in the variable list of an argument list. -/
theorem mem_varsOfList {x : Nat} : ∀ {l : List Proposition},
    x ∈ varsOfList l ↔ ∃ a ∈ l, x ∈ varsOf a := by
  intro l
  induction l with
  | nil => simp [varsOfList]
  | cons a as ih => simp [varsOfList, ih]

/-- The occurs-check agrees with variable-list membership. -/
theorem is_subproposition_iff (v : Nat) :
    ∀ p : Proposition, is_subproposition v p = true ↔ v ∈ varsOf p := by
  intro p
  induction p using Proposition.myInd with
  | hv i => simp [is_subproposition, varsOf, eq_comm]
  | hf i args ih =>
    show is_subproposition_list v args = true ↔ v ∈ varsOfList args
    induction args with
    | nil => simp [is_subproposition_list, varsOfList]
    | cons a as ihl =>
      simp only [is_subproposition_list, varsOfList, Bool.or_eq_true, List.mem_append]
      rw [ih a (by simp), ihl (fun x hx => ih x (by simp [hx]))]
  | hp i args ih =>
    show is_subproposition_list v args = true ↔ v ∈ varsOfList args
    induction args with
    | nil => simp [is_subproposition_list, varsOfList]
    | cons a as ihl =>
      simp only [is_subproposition_list, varsOfList, Bool.or_eq_true, List.mem_append]
      rw [ih a (by simp), ihl (fun x hx => ih x (by simp [hx]))]

/-- Negative form of `is_subproposition_iff`. -/
theorem is_subproposition_false_iff (v : Nat) (p : Proposition) :
    is_subproposition v p = false ↔ v ∉ varsOf p := by
  rw [Bool.eq_false_iff]
  exact not_congr (is_subproposition_iff v p)

/-- Two propositions have no disagreement exactly when they are
structurally equal. -/
theorem get_disagreement_none_iff : ∀ p q : Proposition,
    get_disagreement p q = none ↔ p = q := by
  intro p
  induction p using Proposition.myInd with
  | hv i =>
    intro q
    cases q with
    | Var j => by_cases h : i = j <;> simp [get_disagreement, h]
    | Func j bs => simp [get_disagreement]
    | Pred j bs => simp [get_disagreement]
  | hf i args ih =>
    intro q
    cases q with
    | Var j => simp [get_disagreement]
    | Pred j bs => simp [get_disagreement]
    | Func j bs =>
      by_cases h : i = j ∧ args.length = bs.length
      · rw [get_disagreement, if_pos h]
        obtain ⟨rfl, hlen⟩ := h
        simp only [Proposition.Func.injEq, true_and]
        clear i
        induction args generalizing bs with
        | nil =>
          cases bs with
          | nil => simp [get_disagreement_list]
          | cons b bs => simp at hlen
        | cons a as ihl =>
          cases bs with
          | nil => simp at hlen
          | cons b bs =>
            simp only [get_disagreement_list]
            cases hab : get_disagreement a b with
            | some d =>
              simp only [reduceCtorEq, false_iff]
              intro heq
              injection heq with h1 h2
              rw [(ih a (by simp) b).mpr h1] at hab
              exact Option.noConfusion hab
            | none =>
              have ha : a = b := (ih a (by simp) b).mp hab
              have hrest := ihl (fun x hx => ih x (by simp [hx])) bs (by simpa using hlen)
              simp [ha, hrest]
      · rw [get_disagreement, if_neg h]
        simp only [reduceCtorEq, false_iff]
        intro heq
        injection heq with h1 h2
        exact h ⟨h1, by rw [h2]⟩
  | hp i args ih =>
    intro q
    cases q with
    | Var j => simp [get_disagreement]
    | Func j bs => simp [get_disagreement]
    | Pred j bs =>
      by_cases h : i = j ∧ args.length = bs.length
      · rw [get_disagreement, if_pos h]
        obtain ⟨rfl, hlen⟩ := h
        simp only [Proposition.Pred.injEq, true_and]
        clear i
        induction args generalizing bs with
        | nil =>
          cases bs with
          | nil => simp [get_disagreement_list]
          | cons b bs => simp at hlen
        | cons a as ihl =>
          cases bs with
          | nil => simp at hlen
          | cons b bs =>
            simp only [get_disagreement_list]
            cases hab : get_disagreement a b with
            | some d =>
              simp only [reduceCtorEq, false_iff]
              intro heq
              injection heq with h1 h2
              rw [(ih a (by simp) b).mpr h1] at hab
              exact Option.noConfusion hab
            | none =>
              have ha : a = b := (ih a (by simp) b).mp hab
              have hrest := ihl (fun x hx => ih x (by simp [hx])) bs (by simpa using hlen)
              simp [ha, hrest]
      · rw [get_disagreement, if_neg h]
        simp only [reduceCtorEq, false_iff]
        intro heq
        injection heq with h1 h2
        exact h ⟨h1, by rw [h2]⟩

/-- A disagreement found in two argument lists comes from some aligned pair
of members. -/
theorem get_disagreement_list_mem : ∀ (as bs : List Proposition) (d : Proposition × Proposition),
    get_disagreement_list as bs = some d →
    ∃ a ∈ as, ∃ b ∈ bs, get_disagreement a b = some d := by
  intro as
  induction as with
  | nil => intro bs d h; simp [get_disagreement_list] at h
  | cons a as ih =>
    intro bs d h
    cases bs with
    | nil => simp [get_disagreement_list] at h
    | cons b bs =>
      simp only [get_disagreement_list] at h
      cases hab : get_disagreement a b with
      | some d' =>
        rw [hab] at h
        injection h with h'
        exact ⟨a, by simp, b, by simp, by rw [hab, h']⟩
      | none =>
        rw [hab] at h
        obtain ⟨a', ha', b', hb', h'⟩ := ih bs d h
        exact ⟨a', by simp [ha'], b', by simp [hb'], h'⟩

/-- Both components of a disagreement pair are sub-terms of the respective
inputs, hence their variables occur there. -/
theorem get_disagreement_vars : ∀ p q d0 d1 : Proposition,
    get_disagreement p q = some (d0, d1) →
    (∀ x, x ∈ varsOf d0 → x ∈ varsOf p) ∧ (∀ x, x ∈ varsOf d1 → x ∈ varsOf q) := by
  intro p
  induction p using Proposition.myInd with
  | hv i =>
    intro q d0 d1 h
    cases q with
    | Var j =>
      by_cases hij : i = j
      · simp [get_disagreement, hij] at h
      · rw [get_disagreement, if_neg hij] at h
        injection h with h'
        injection h' with h1 h2
        subst h1; subst h2
        exact ⟨fun x hx => hx, fun x hx => hx⟩
    | Func j bs =>
      injection h with h'
      injection h' with h1 h2
      subst h1; subst h2
      exact ⟨fun x hx => hx, fun x hx => hx⟩
    | Pred j bs =>
      injection h with h'
      injection h' with h1 h2
      subst h1; subst h2
      exact ⟨fun x hx => hx, fun x hx => hx⟩
  | hf i args ih =>
    intro q d0 d1 h
    cases q with
    | Var j =>
      injection h with h'
      injection h' with h1 h2
      subst h1; subst h2
      exact ⟨fun x hx => hx, fun x hx => hx⟩
    | Pred j bs =>
      injection h with h'
      injection h' with h1 h2
      subst h1; subst h2
      exact ⟨fun x hx => hx, fun x hx => hx⟩
    | Func j bs =>
      by_cases hc : i = j ∧ args.length = bs.length
      · rw [get_disagreement, if_pos hc] at h
        obtain ⟨a, ha, b, hb, hab⟩ := get_disagreement_list_mem args bs (d0, d1) h
        have ⟨ih0, ih1⟩ := ih a ha _ _ _ hab
        constructor
        · intro x hx
          show x ∈ varsOfList args
          exact mem_varsOfList.mpr ⟨a, ha, ih0 x hx⟩
        · intro x hx
          show x ∈ varsOfList bs
          exact mem_varsOfList.mpr ⟨b, hb, ih1 x hx⟩
      · rw [get_disagreement, if_neg hc] at h
        injection h with h'
        injection h' with h1 h2
        subst h1; subst h2
        exact ⟨fun x hx => hx, fun x hx => hx⟩
  | hp i args ih =>
    intro q d0 d1 h
    cases q with
    | Var j =>
      injection h with h'
      injection h' with h1 h2
      subst h1; subst h2
      exact ⟨fun x hx => hx, fun x hx => hx⟩
    | Func j bs =>
      injection h with h'
      injection h' with h1 h2
      subst h1; subst h2
      exact ⟨fun x hx => hx, fun x hx => hx⟩
    | Pred j bs =>
      by_cases hc : i = j ∧ args.length = bs.length
      · rw [get_disagreement, if_pos hc] at h
        obtain ⟨a, ha, b, hb, hab⟩ := get_disagreement_list_mem args bs (d0, d1) h
        have ⟨ih0, ih1⟩ := ih a ha _ _ _ hab
        constructor
        · intro x hx
          show x ∈ varsOfList args
          exact mem_varsOfList.mpr ⟨a, ha, ih0 x hx⟩
        · intro x hx
          show x ∈ varsOfList bs
          exact mem_varsOfList.mpr ⟨b, hb, ih1 x hx⟩
      · rw [get_disagreement, if_neg hc] at h
        injection h with h'
        injection h' with h1 h2
        subst h1; subst h2
        exact ⟨fun x hx => hx, fun x hx => hx⟩

/-- Variables of a substituted proposition come from the original
proposition or from the substituted term. -/
theorem varsOf_apply_sub (s : Substitution) : ∀ (p : Proposition) (x : Nat),
    x ∈ varsOf (s.apply p) → x ∈ varsOf p ∨ x ∈ varsOf s.term := by
  intro p
  induction p using Proposition.myInd with
  | hv i =>
    intro x hx
    by_cases h : i = s.variableIndex
    · rw [show s.apply (.Var i) = s.term by simp [Substitution.apply, h]] at hx
      exact Or.inr hx
    · rw [show s.apply (.Var i) = .Var i by simp [Substitution.apply, h]] at hx
      exact Or.inl hx
  | hf i args ih =>
    intro x hx
    show x ∈ varsOfList args ∨ x ∈ varsOf s.term
    have hx' : x ∈ varsOfList (s.apply_list args) := hx
    clear hx
    induction args with
    | nil => simp [Substitution.apply_list, varsOfList] at hx'
    | cons a as ihl =>
      simp only [Substitution.apply_list, varsOfList, List.mem_append] at hx'
      cases hx' with
      | inl h1 =>
        cases ih a (by simp) x h1 with
        | inl h2 => exact Or.inl (by simp [varsOfList, h2])
        | inr h2 => exact Or.inr h2
      | inr h2 =>
        cases ihl (fun y hy => ih y (by simp [hy])) h2 with
        | inl h3 => exact Or.inl (by simp [varsOfList]; exact Or.inr h3)
        | inr h3 => exact Or.inr h3
  | hp i args ih =>
    intro x hx
    show x ∈ varsOfList args ∨ x ∈ varsOf s.term
    have hx' : x ∈ varsOfList (s.apply_list args) := hx
    clear hx
    induction args with
    | nil => simp [Substitution.apply_list, varsOfList] at hx'
    | cons a as ihl =>
      simp only [Substitution.apply_list, varsOfList, List.mem_append] at hx'
      cases hx' with
      | inl h1 =>
        cases ih a (by simp) x h1 with
        | inl h2 => exact Or.inl (by simp [varsOfList, h2])
        | inr h2 => exact Or.inr h2
      | inr h2 =>
        cases ihl (fun y hy => ih y (by simp [hy])) h2 with
        | inl h3 => exact Or.inl (by simp [varsOfList]; exact Or.inr h3)
        | inr h3 => exact Or.inr h3

/-- Applying a substitution whose occurs-check holds eliminates the bound
variable from the result. -/
theorem not_mem_varsOf_apply (s : Substitution)
    (hvt : s.variableIndex ∉ varsOf s.term) : ∀ p : Proposition,
    s.variableIndex ∉ varsOf (s.apply p) := by
  intro p
  induction p using Proposition.myInd with
  | hv i =>
    by_cases h : i = s.variableIndex
    · rw [show s.apply (.Var i) = s.term by simp [Substitution.apply, h]]
      exact hvt
    · rw [show s.apply (.Var i) = .Var i by simp [Substitution.apply, h]]
      simp [varsOf]
      exact fun heq => h heq.symm
  | hf i args ih =>
    show s.variableIndex ∉ varsOfList (s.apply_list args)
    induction args with
    | nil => simp [Substitution.apply_list, varsOfList]
    | cons a as ihl =>
      simp only [Substitution.apply_list, varsOfList, List.mem_append]
      rintro (h1 | h2)
      · exact ih a (by simp) h1
      · exact ihl (fun y hy => ih y (by simp [hy])) h2
  | hp i args ih =>
    show s.variableIndex ∉ varsOfList (s.apply_list args)
    induction args with
    | nil => simp [Substitution.apply_list, varsOfList]
    | cons a as ihl =>
      simp only [Substitution.apply_list, varsOfList, List.mem_append]
      rintro (h1 | h2)
      · exact ih a (by simp) h1
      · exact ihl (fun y hy => ih y (by simp [hy])) h2

/-- Shape of a successfully proposed binding: the occurs-check passed and
the binding comes straight from the disagreement pair, the variable side
bound to the other side. -/
theorem propose_substitution_ok {d0 d1 p0 p1 : Proposition} {s : Substitution}
    (h : propose_substitution d0 d1 p0 p1 = .ok s) :
    is_subproposition s.variableIndex s.term = false ∧
    ((d0 = .Var s.variableIndex ∧ s.term = d1) ∨
     (d1 = .Var s.variableIndex ∧ s.term = d0)) := by
  cases d0 with
  | Var i =>
    cases d1 with
    | Var j =>
      simp only [propose_substitution] at h
      split at h
      · exact absurd h (by simp)
      · rename_i hocc
        injection h with h'
        subst h'
        exact ⟨Bool.eq_false_iff.mpr hocc, Or.inl ⟨rfl, rfl⟩⟩
    | Func j bs =>
      simp only [propose_substitution] at h
      split at h
      · exact absurd h (by simp)
      · rename_i hocc
        injection h with h'
        subst h'
        exact ⟨Bool.eq_false_iff.mpr hocc, Or.inl ⟨rfl, rfl⟩⟩
    | Pred j bs => simp [propose_substitution] at h
  | Func i as =>
    cases d1 with
    | Var j =>
      simp only [propose_substitution] at h
      split at h
      · exact absurd h (by simp)
      · rename_i hocc
        injection h with h'
        subst h'
        exact ⟨Bool.eq_false_iff.mpr hocc, Or.inr ⟨rfl, rfl⟩⟩
    | Func j bs => simp [propose_substitution] at h
    | Pred j bs => simp [propose_substitution] at h
  | Pred i as =>
    cases d1 with
    | Var j => simp [propose_substitution] at h
    | Func j bs => simp [propose_substitution] at h
    | Pred j bs => simp [propose_substitution] at h

/-- A failed binding proposal always raises `nonUnifiable` carrying the
first two propositions of the set. -/
theorem propose_substitution_error {d0 d1 p0 p1 : Proposition} {e : YError}
    (h : propose_substitution d0 d1 p0 p1 = .error e) : e = .nonUnifiable p0 p1 := by
  cases d0 <;> cases d1 <;> simp only [propose_substitution] at h <;>
    first
    | (injection h with h'; exact h'.symm)
    | (split at h
       · injection h with h'
         exact h'.symm
       · exact absurd h (by simp))

/-- Variable bookkeeping of one successful unification step: the bound
variable occurs in the first two propositions, the bound term's variables
all occur there, and the occurs-check holds. -/
theorem propose_vars {p0 p1 d0 d1 : Proposition} {s : Substitution}
    (hd : get_disagreement p0 p1 = some (d0, d1))
    (hs : propose_substitution d0 d1 p0 p1 = .ok s) :
    (s.variableIndex ∈ varsOf p0 ∨ s.variableIndex ∈ varsOf p1) ∧
    (∀ x ∈ varsOf s.term, x ∈ varsOf p0 ∨ x ∈ varsOf p1) ∧
    s.variableIndex ∉ varsOf s.term := by
  obtain ⟨hocc, hshape⟩ := propose_substitution_ok hs
  obtain ⟨hd0, hd1⟩ := get_disagreement_vars p0 p1 d0 d1 hd
  refine ⟨?_, ?_, (is_subproposition_false_iff _ _).mp hocc⟩
  · cases hshape with
    | inl h =>
      obtain ⟨h0, _⟩ := h
      exact Or.inl (hd0 _ (by simp [h0, varsOf]))
    | inr h =>
      obtain ⟨h1, _⟩ := h
      exact Or.inr (hd1 _ (by simp [h1, varsOf]))
  · cases hshape with
    | inl h =>
      obtain ⟨_, ht⟩ := h
      intro x hx
      exact Or.inr (hd1 x (ht ▸ hx))
    | inr h =>
      obtain ⟨_, ht⟩ := h
      intro x hx
      exact Or.inl (hd0 x (ht ▸ hx))

/-- Each successful unification step maps the variable set of the
proposition list into the old variable set minus the bound variable. -/
theorem step_vars (p0 p1 : Proposition) (rest : List Proposition)
    (d0 d1 : Proposition) (s : Substitution)
    (hd : get_disagreement p0 p1 = some (d0, d1))
    (hs : propose_substitution d0 d1 p0 p1 = .ok s) :
    (∀ x, x ∈ varsOfList (((p0 :: p1 :: rest).map s.apply).dedup) →
       x ∈ varsOfList (p0 :: p1 :: rest) ∧ x ≠ s.variableIndex) ∧
    s.variableIndex ∈ varsOfList (p0 :: p1 :: rest) := by
  obtain ⟨hvmem, hterm, hvt⟩ := propose_vars hd hs
  constructor
  · intro x hx
    obtain ⟨q, hq, hxq⟩ := mem_varsOfList.mp hx
    rw [List.mem_dedup] at hq
    obtain ⟨p, hp, rfl⟩ := List.mem_map.mp hq
    constructor
    · cases varsOf_apply_sub s p x hxq with
      | inl h => exact mem_varsOfList.mpr ⟨p, hp, h⟩
      | inr h =>
        cases hterm x h with
        | inl h0 => exact mem_varsOfList.mpr ⟨p0, by simp, h0⟩
        | inr h1 => exact mem_varsOfList.mpr ⟨p1, by simp, h1⟩
    · intro hxv
      exact not_mem_varsOf_apply s hvt p (hxv ▸ hxq)
  · cases hvmem with
    | inl h => exact mem_varsOfList.mpr ⟨p0, by simp, h⟩
    | inr h => exact mem_varsOfList.mpr ⟨p1, by simp, h⟩

/-- Each successful unification step strictly decreases the number of
distinct variables across the proposition set. -/
theorem step_count_lt (p0 p1 : Proposition) (rest : List Proposition)
    (d0 d1 : Proposition) (s : Substitution)
    (hd : get_disagreement p0 p1 = some (d0, d1))
    (hs : propose_substitution d0 d1 p0 p1 = .ok s) :
    distinctVarCount (((p0 :: p1 :: rest).map s.apply).dedup) <
      distinctVarCount (p0 :: p1 :: rest) := by
  obtain ⟨hsub, hv⟩ := step_vars p0 p1 rest d0 d1 s hd hs
  rw [distinctVarCount, distinctVarCount, ← List.card_toFinset, ← List.card_toFinset]
  apply Finset.card_lt_card
  rw [Finset.ssubset_iff_of_subset]
  · refine ⟨s.variableIndex, List.mem_toFinset.mpr hv, ?_⟩
    intro hmem
    exact (hsub _ (List.mem_toFinset.mp hmem)).2 rfl
  · intro x hx
    exact List.mem_toFinset.mpr (hsub x (List.mem_toFinset.mp hx)).1

/-- Fuel one more than the distinct-variable count always suffices for
`mguFuel`. -/
theorem mguFuel_total_aux : ∀ (n : Nat) (props : List Proposition)
    (subs : List Substitution), distinctVarCount props ≤ n →
    (mguFuel (n + 1) props subs).isSome = true := by
  intro n
  induction n with
  | zero =>
    intro props subs h
    match props with
    | [] => simp [mguFuel]
    | [p] => simp [mguFuel]
    | p0 :: p1 :: rest =>
      simp only [mguFuel]
      cases hd : get_disagreement p0 p1 with
      | none => simp
      | some d =>
        obtain ⟨d0, d1⟩ := d
        cases hs : propose_substitution d0 d1 p0 p1 with
        | error e => simp [hs]
        | ok s =>
          exfalso
          have hlt := step_count_lt p0 p1 rest d0 d1 s hd hs
          omega
  | succ n ih =>
    intro props subs h
    match props with
    | [] => simp [mguFuel]
    | [p] => simp [mguFuel]
    | p0 :: p1 :: rest =>
      simp only [mguFuel]
      cases hd : get_disagreement p0 p1 with
      | none => simp
      | some d =>
        obtain ⟨d0, d1⟩ := d
        cases hs : propose_substitution d0 d1 p0 p1 with
        | error e => simp [hs]
        | ok s =>
          dsimp only
          rw [hs]
          dsimp only
          have hlt := step_count_lt p0 p1 rest d0 d1 s hd hs
          exact ih _ _ (by omega)

/-- Unfolding helper: a successful `most_general_unifier` run is a
successful `mguFuel` run at the canonical fuel. -/
theorem most_general_unifier_ok {props : List Proposition}
    {out : List Substitution} (h : most_general_unifier props = .ok out) :
    mguFuel (unifierFuel props) props [] = some (.ok out) := by
  unfold most_general_unifier at h
  cases hm : mguFuel (unifierFuel props) props [] with
  | none => rw [hm] at h; simp at h
  | some r =>
    rw [hm] at h
    cases r with
    | error e => simp at h
    | ok u => simp at h; rw [h]

/-- Core soundness of the fuel-indexed unification loop: whenever it
succeeds and the first two propositions (if any) are distinct, the output
extends the accumulator by a tail whose ordered application equalises every
proposition of the set. -/
theorem mguFuel_unifies : ∀ (fuel : Nat) (props : List Proposition)
    (subs : List Substitution) (out : List Substitution),
    mguFuel fuel props subs = some (.ok out) →
    (∀ p0 p1 rest, props = p0 :: p1 :: rest → p0 ≠ p1) →
    ∃ tail, out = subs ++ tail ∧
      ∀ p ∈ props, ∀ q ∈ props, foldApply tail p = foldApply tail q := by
  intro fuel
  induction fuel with
  | zero => intro props subs out h hne; simp [mguFuel] at h
  | succ fuel ih =>
    intro props subs out h hne
    match props with
    | [] => simp [mguFuel] at h
    | [p] =>
      simp only [mguFuel, Option.some.injEq, Except.ok.injEq] at h
      subst h
      refine ⟨[], by simp, ?_⟩
      intro p' hp' q hq
      rw [List.mem_singleton] at hp' hq
      rw [hp', hq]
    | p0 :: p1 :: rest =>
      have hne01 : p0 ≠ p1 := hne p0 p1 rest rfl
      simp only [mguFuel] at h
      cases hd : get_disagreement p0 p1 with
      | none => exact absurd ((get_disagreement_none_iff p0 p1).mp hd) hne01
      | some d =>
        rw [hd] at h
        obtain ⟨d0, d1⟩ := d
        dsimp only at h
        cases hs : propose_substitution d0 d1 p0 p1 with
        | error e => rw [hs] at h; simp at h
        | ok s =>
          rw [hs] at h
          dsimp only at h
          have hnodup := List.nodup_dedup ((p0 :: p1 :: rest).map s.apply)
          have hne' : ∀ a b r, ((p0 :: p1 :: rest).map s.apply).dedup = a :: b :: r → a ≠ b := by
            intro a b r heq hab
            rw [heq] at hnodup
            subst hab
            simp at hnodup
          obtain ⟨tail, htail, hall⟩ := ih _ _ _ h hne'
          refine ⟨s :: tail, by simp [htail], ?_⟩
          intro p hp q hq
          have fold_cons : ∀ (u : List Substitution) (x : Proposition),
              foldApply (s :: u) x = foldApply u (s.apply x) := fun u x => rfl
          rw [fold_cons, fold_cons]
          exact hall _ (List.mem_dedup.mpr (List.mem_map_of_mem _ hp))
            _ (List.mem_dedup.mpr (List.mem_map_of_mem _ hq))

/-- Elimination invariant of the fuel-indexed loop: if every variable bound
in the accumulator is pairwise-absent from later right-hand terms and
absent from the current proposition set, the output keeps the pairwise
absence. -/
theorem mguFuel_pairwise : ∀ (fuel : Nat) (props : List Proposition)
    (subs : List Substitution) (out : List Substitution),
    mguFuel fuel props subs = some (.ok out) →
    subs.Pairwise (fun a b => is_subproposition a.variableIndex b.term = false) →
    (∀ s ∈ subs, ∀ p ∈ props, is_subproposition s.variableIndex p = false) →
    out.Pairwise (fun a b => is_subproposition a.variableIndex b.term = false) := by
  intro fuel
  induction fuel with
  | zero => intro props subs out h hpw habs; simp [mguFuel] at h
  | succ fuel ih =>
    intro props subs out h hpw habs
    match props with
    | [] => simp [mguFuel] at h
    | [p] =>
      simp only [mguFuel, Option.some.injEq, Except.ok.injEq] at h
      subst h
      exact hpw
    | p0 :: p1 :: rest =>
      simp only [mguFuel] at h
      cases hd : get_disagreement p0 p1 with
      | none =>
        rw [hd] at h
        simp only [Option.some.injEq, Except.ok.injEq] at h
        subst h
        exact List.Pairwise.nil
      | some d =>
        rw [hd] at h
        obtain ⟨d0, d1⟩ := d
        dsimp only at h
        cases hs : propose_substitution d0 d1 p0 p1 with
        | error e => rw [hs] at h; simp at h
        | ok s =>
          rw [hs] at h
          dsimp only at h
          obtain ⟨hvmem, hterm, hvt⟩ := propose_vars hd hs
          have hterm_abs : ∀ a ∈ subs, is_subproposition a.variableIndex s.term = false := by
            intro a ha
            rw [is_subproposition_false_iff]
            intro hmem
            cases hterm _ hmem with
            | inl h0 =>
              exact (is_subproposition_false_iff _ _).mp (habs a ha p0 (by simp)) h0
            | inr h1 =>
              exact (is_subproposition_false_iff _ _).mp (habs a ha p1 (by simp)) h1
          refine ih _ _ _ h ?_ ?_
          · rw [List.pairwise_append]
            exact ⟨hpw, List.pairwise_singleton _ _,
              fun a ha b hb => (List.mem_singleton.mp hb) ▸ hterm_abs a ha⟩
          · intro s' hs' p' hp'
            rw [List.mem_dedup] at hp'
            obtain ⟨p, hp, rfl⟩ := List.mem_map.mp hp'
            rw [List.mem_append] at hs'
            cases hs' with
            | inl hold =>
              rw [is_subproposition_false_iff]
              intro hmem
              cases varsOf_apply_sub s p _ hmem with
              | inl hin =>
                exact (is_subproposition_false_iff _ _).mp (habs s' hold p hp) hin
              | inr hin =>
                exact (is_subproposition_false_iff _ _).mp (hterm_abs s' hold) hin
            | inr hnew =>
              rw [List.mem_singleton.mp hnew]
              rw [is_subproposition_false_iff]
              exact not_mem_varsOf_apply s hvt p

/-- The unification engine only ever raises `nonUnifiable` or (on the empty
input) `indexError`; it never raises the rule-application or
self-replacement errors. -/
theorem mguFuel_error_kinds : ∀ (fuel : Nat) (props : List Proposition)
    (subs : List Substitution) (e : YError),
    mguFuel fuel props subs = some (.error e) →
    e ≠ .invalidRuleApplication ∧ e ≠ .termSelfReplace := by
  intro fuel
  induction fuel with
  | zero => intro props subs e h; simp [mguFuel] at h
  | succ fuel ih =>
    intro props subs e h
    match props with
    | [] =>
      simp only [mguFuel, Option.some.injEq, Except.error.injEq] at h
      subst h
      exact ⟨by simp, by simp⟩
    | [p] => simp [mguFuel] at h
    | p0 :: p1 :: rest =>
      simp only [mguFuel] at h
      cases hd : get_disagreement p0 p1 with
      | none => rw [hd] at h; simp at h
      | some d =>
        rw [hd] at h
        obtain ⟨d0, d1⟩ := d
        dsimp only at h
        cases hs : propose_substitution d0 d1 p0 p1 with
        | error e' =>
          rw [hs] at h
          simp only [Option.some.injEq, Except.error.injEq] at h
          subst h
          rw [propose_substitution_error hs]
          exact ⟨by simp, by simp⟩
        | ok s =>
          rw [hs] at h
          dsimp only at h
          exact ih _ _ _ h

/-- A failing `most_general_unifier` never raises the rule-application or
self-replacement errors. -/
theorem most_general_unifier_error_kinds {props : List Proposition} {e : YError}
    (h : most_general_unifier props = .error e) :
    e ≠ .invalidRuleApplication ∧ e ≠ .termSelfReplace := by
  unfold most_general_unifier at h
  cases hm : mguFuel (unifierFuel props) props [] with
  | none =>
    rw [hm] at h
    simp only [Option.getD] at h
    injection h with h'
    subst h'
    exact ⟨by simp, by simp⟩
  | some r =>
    rw [hm] at h
    cases r with
    | error e' =>
      simp only [Option.getD] at h
      injection h with h'
      subst h'
      exact mguFuel_error_kinds _ _ _ _ hm
    | ok u => simp at h

/-- Clause construction always yields a duplicate-free literal list. -/
theorem mkClause_nodup (lits : List Literal) (label : Option String)
    (parents : Option (List (Option String))) (rule : Option String) :
    (mkClause lits label parents rule).literals.Nodup :=
  List.nodup_dedup lits

/-- Folding substitution application over a clause preserves literal
deduplication (rebuilding goes through clause construction). -/
theorem foldl_substitute_nodup : ∀ (subs : List Substitution) (init : Clause),
    init.literals.Nodup →
    ((subs.foldl (fun r s => s.substitute_in_clause r) init).literals).Nodup := by
  intro subs
  induction subs with
  | nil => intro init h; exact h
  | cons s rest ih =>
    intro init h
    exact ih (s.substitute_in_clause init) (List.nodup_dedup _)

/-- Success shape of `all_possible_factors`: the result is the collected
factors, each re-tagged with the factoring provenance. -/
theorem all_possible_factors_ok {given_clause : Clause} {res : List Clause}
    (h : all_possible_factors given_clause = .ok res) :
    ∃ fs : List Clause, res = fs.map (fun factor =>
      mkClause factor.literals none (some [given_clause.label]) (some "factoring")) := by
  unfold all_possible_factors at h
  cases hc : collectFactors given_clause (indexPairs given_clause.literals.length) with
  | error e => rw [hc] at h; simp at h
  | ok fs =>
    rw [hc] at h
    simp only [Option.some.injEq, Except.ok.injEq] at h
    exact ⟨fs, h.symm⟩

/-- Every clause produced by the per-literal paramodulation loop is a
freshly tagged paramodulant of the processed clause and the given
clause. -/
theorem paramodulantsPerLiteral_mem :
    ∀ (other_clause given_clause : Clause) (idxs : List Nat) (res : List Clause),
    paramodulantsPerLiteral other_clause given_clause idxs = .ok res →
    ∀ c ∈ res, ∃ p : Clause, c = mkClause p.literals none
      (some [other_clause.label, given_clause.label]) (some "paramodulation") := by
  intro oc gc idxs
  induction idxs with
  | nil =>
    intro res h c hc
    simp only [paramodulantsPerLiteral, Except.ok.injEq] at h
    subst h
    simp at hc
  | cons i is' ih =>
    intro res h c hc
    simp only [paramodulantsPerLiteral] at h
    cases hg : get_new_paramodulants
        (mkClause (oc.literals.take i ++ oc.literals.drop (i + 1)) none none none)
        (oc.literals.getD i default) gc with
    | error e => rw [hg] at h; simp at h
    | ok ps =>
      rw [hg] at h
      dsimp only at h
      cases hr : paramodulantsPerLiteral oc gc is' with
      | error e => rw [hr] at h; simp at h
      | ok rest =>
        rw [hr] at h
        simp only [Except.ok.injEq] at h
        subst h
        rw [List.mem_append] at hc
        cases hc with
        | inl hmem =>
          obtain ⟨p, hp, rfl⟩ := List.mem_map.mp hmem
          exact ⟨p, rfl⟩
        | inr hmem => exact ih rest hr c hmem

/-- Every clause produced by the enumeration entry point traces back to one
of the processed clauses, tagged with the paramodulation provenance. -/
theorem paramodulantsPerClause_mem :
    ∀ (given_clause : Clause) (cls : List Clause) (res : List Clause),
    paramodulantsPerClause given_clause cls = .ok res →
    ∀ c ∈ res, ∃ oc ∈ cls, ∃ p : Clause, c = mkClause p.literals none
      (some [oc.label, given_clause.label]) (some "paramodulation") := by
  intro gc cls
  induction cls with
  | nil =>
    intro res h c hc
    simp only [paramodulantsPerClause, Except.ok.injEq] at h
    subst h
    simp at hc
  | cons oc ocs ih =>
    intro res h c hc
    simp only [paramodulantsPerClause] at h
    cases hp : paramodulantsPerLiteral oc gc (List.range oc.literals.length) with
    | error e => rw [hp] at h; simp at h
    | ok ps =>
      rw [hp] at h
      dsimp only at h
      cases hr : paramodulantsPerClause gc ocs with
      | error e => rw [hr] at h; simp at h
      | ok more =>
        rw [hr] at h
        simp only [Except.ok.injEq] at h
        subst h
        rw [List.mem_append] at hc
        cases hc with
        | inl hmem =>
          obtain ⟨p, hpmem⟩ := paramodulantsPerLiteral_mem oc gc _ ps hp c hmem
          exact ⟨oc, by simp, p, hpmem⟩
        | inr hmem =>
          obtain ⟨oc', hoc', p, hpmem⟩ := ih more hr c hmem
          exact ⟨oc', by simp [hoc'], p, hpmem⟩

/-- C1: for every pair of propositions on which `most_general_unifier`
succeeds, applying every substitution of the returned unifier in order (a
single fold over the sequence) to both propositions yields structurally
equal propositions. -/
theorem c1_unifier_soundness (p q : Proposition) (u : List Substitution)
    (h : most_general_unifier [p, q] = .ok u) :
    foldApply u p = foldApply u q := by
  have hm := most_general_unifier_ok h
  by_cases hpq : p = q
  · subst hpq
    rfl
  · have hne : ∀ p0 p1 rest, ([p, q] : List Proposition) = p0 :: p1 :: rest → p0 ≠ p1 := by
      intro p0 p1 rest heq
      injection heq with h1 h2
      injection h2 with h2 h3
      subst h1
      subst h2
      exact hpq
    obtain ⟨tail, htail, hall⟩ := mguFuel_unifies _ _ _ _ hm hne
    rw [List.nil_append] at htail
    subst htail
    exact hall p (by simp) q (by simp)

/-- Witness for C1 at the concrete pair `p8(X0)` and `p8(f1)`. -/
theorem c1_unifier_soundness_witness :
    most_general_unifier [.Pred 8 [.Var 0], .Pred 8 [.Func 1 []]] =
      .ok [⟨0, .Func 1 []⟩] ∧
    foldApply [⟨0, .Func 1 []⟩] (.Pred 8 [.Var 0]) =
      foldApply [⟨0, .Func 1 []⟩] (.Pred 8 [.Func 1 []]) :=
  ⟨by rfl, c1_unifier_soundness _ _ _ (by rfl)⟩

/-- C2 counterexample: on the three-element input `(X0, X0, X1)` the
function succeeds with the empty unifier (the early return of the
no-disagreement branch), yet applying that unifier does not make all
propositions of the sequence identical. -/
theorem c2_whole_set_counterexample :
    most_general_unifier [.Var 0, .Var 0, .Var 1] = .ok [] ∧
    foldApply [] (.Var 0) ≠ foldApply [] (.Var 1) := by
  exact ⟨by rfl, by decide⟩

/-- C2 (amended): for every input sequence of two or more propositions whose
first two elements are structurally distinct, if `most_general_unifier`
succeeds then applying every returned binding in order makes every
proposition of the sequence syntactically identical. -/
theorem c2_unifies_whole_set (p0 p1 : Proposition) (rest : List Proposition)
    (u : List Substitution) (hne : p0 ≠ p1)
    (h : most_general_unifier (p0 :: p1 :: rest) = .ok u) :
    ∀ p ∈ p0 :: p1 :: rest, ∀ q ∈ p0 :: p1 :: rest,
      foldApply u p = foldApply u q := by
  have hm := most_general_unifier_ok h
  have hne' : ∀ a b r, (p0 :: p1 :: rest : List Proposition) = a :: b :: r → a ≠ b := by
    intro a b r heq
    injection heq with h1 h2
    injection h2 with h2 h3
    subst h1
    subst h2
    exact hne
  obtain ⟨tail, htail, hall⟩ := mguFuel_unifies _ _ _ _ hm hne'
  rw [List.nil_append] at htail
  subst htail
  exact hall

/-- Witness for the amended C2 at the concrete three-element set
`(X0, f1, X2)`. -/
theorem c2_unifies_whole_set_witness :
    (Proposition.Var 0 ≠ Proposition.Func 1 []) ∧
    most_general_unifier [.Var 0, .Func 1 [], .Var 2] =
      .ok [⟨0, .Func 1 []⟩, ⟨2, .Func 1 []⟩] ∧
    ∀ p ∈ [Proposition.Var 0, Proposition.Func 1 [], Proposition.Var 2],
      ∀ q ∈ [Proposition.Var 0, Proposition.Func 1 [], Proposition.Var 2],
      foldApply [⟨0, .Func 1 []⟩, ⟨2, .Func 1 []⟩] p =
        foldApply [⟨0, .Func 1 []⟩, ⟨2, .Func 1 []⟩] q :=
  ⟨by decide, by rfl,
   c2_unifies_whole_set (.Var 0) (.Func 1 []) [.Var 2] _ (by decide) (by rfl)⟩

/-- C3: `factoring` fails with the rule-application error exactly when one
of the two literals is negated; on two positive literals it computes the
mgu of the two atoms (propagating its failure verbatim) and otherwise
returns the clause built from the given clause's literals plus
`literal_one`, with every mgu binding applied in order. -/
theorem c3_factoring_contract (c : Clause) (l1 l2 : Literal) :
    (factoring c l1 l2 = .error .invalidRuleApplication ↔
      (l1.negated = true ∨ l2.negated = true)) ∧
    (l1.negated = false → l2.negated = false →
      factoring c l1 l2 =
        match most_general_unifier [l1.atom, l2.atom] with
        | .error e => .error e
        | .ok subs => .ok (subs.foldl (fun r s => s.substitute_in_clause r)
            (mkClause (c.literals ++ [l1]) none none none))) := by
  constructor
  · constructor
    · intro herr
      by_cases h1 : l1.negated
      · exact Or.inl h1
      · by_cases h2 : l2.negated
        · exact Or.inr h2
        · exfalso
          rw [Bool.not_eq_true] at h1 h2
          unfold factoring at herr
          rw [h1, h2] at herr
          simp only [Bool.or_self, Bool.false_eq_true, if_false] at herr
          cases hmgu : most_general_unifier [l1.atom, l2.atom] with
          | error e =>
            rw [hmgu] at herr
            simp only [Except.error.injEq] at herr
            exact (most_general_unifier_error_kinds hmgu).1 herr
          | ok subs =>
            rw [hmgu] at herr
            simp at herr
    · intro hneg
      unfold factoring
      rw [if_pos]
      cases hneg with
      | inl h => simp [h]
      | inr h => simp [h]
  · intro h1 h2
    unfold factoring
    rw [if_neg]
    simp [h1, h2]

/-- Witness for C3: the negated second literal raises the error, and the
concrete positive pair produces the factored clause through the mgu. -/
theorem c3_factoring_contract_witness :
    factoring (mkClause [] none none none) ⟨false, .Pred 8 []⟩ ⟨true, .Pred 7 []⟩ =
      .error .invalidRuleApplication ∧
    factoring (mkClause [⟨true, .Pred 8 [.Var 0]⟩] none none none)
        ⟨false, .Pred 9 [.Var 0]⟩ ⟨false, .Pred 9 [.Func 0 []]⟩ =
      match most_general_unifier [Proposition.Pred 9 [.Var 0], Proposition.Pred 9 [.Func 0 []]] with
      | .error e => .error e
      | .ok subs => .ok (subs.foldl (fun r s => s.substitute_in_clause r)
          (mkClause ((mkClause [⟨true, .Pred 8 [.Var 0]⟩] none none none).literals
            ++ [⟨false, .Pred 9 [.Var 0]⟩]) none none none)) :=
  ⟨(c3_factoring_contract _ _ _).1.mpr (Or.inr rfl),
   (c3_factoring_contract _ _ _).2 rfl rfl⟩

/-- C4: for the documented example — processed clause `a = b ∨ X = X` and
given clause `b = c` — the paramodulation enumeration returns exactly six
clauses, pinning down the positional loop over sub-term positions
`1 … size − 1` and the doubling over both equality orientations. -/
theorem c4_paramodulation_example_count :
    (all_paramodulants_from_list [exampleClauseOne] exampleClauseTwo).map
      List.length = .ok 6 := by
  rfl

/-- C5: `all_paramodulants_from_clause` fails with the rule-application
error whenever its equality literal is negated, carries a predicate index
other than the reserved equality symbol, or does not have exactly two
arguments; and it returns the empty sequence when the two sides of the
equality are structurally identical. -/
theorem c5_paramodulants_equality_precondition (c1 : Clause) (l1 : Literal)
    (c2 : Clause) (l2 : Literal) (i : Nat) (args : List Proposition)
    (hatom : l1.atom = .Pred i args) :
    ((l1.negated = true ∨ i ≠ EQUALITY_SYMBOL_ID ∨ args.length ≠ 2) →
      all_paramodulants_from_clause c1 l1 c2 l2 = .error .invalidRuleApplication) ∧
    (∀ a b : Proposition, args = [a, b] → l1.negated = false →
      i = EQUALITY_SYMBOL_ID → a = b →
      all_paramodulants_from_clause c1 l1 c2 l2 = .ok []) := by
  have hidx : l1.atom.index = i := by rw [hatom]; rfl
  have hargs : l1.atom.arguments = args := by rw [hatom]; rfl
  constructor
  · intro hbad
    unfold all_paramodulants_from_clause
    split
    · rfl
    · rename_i hcond
      exfalso
      rw [hidx, hargs] at hcond
      tauto
  · intro a b hab h1 hEQ hdeg
    unfold all_paramodulants_from_clause
    split
    · rename_i hcond
      exfalso
      rw [hidx, hargs] at hcond
      rcases hcond with hc | hc | hc
      · exact hc hEQ
      · rw [h1] at hc
        exact Bool.false_ne_true hc
      · rw [hab] at hc
        exact hc rfl
    · split
      · rfl
      · rename_i hdegcond
        exfalso
        apply hdegcond
        rw [hargs, hab]
        simpa using hdeg

/-- Witness for C5: a negated equality raises the error and a trivial
equality yields the empty sequence, at concrete inputs. -/
theorem c5_paramodulants_equality_precondition_witness :
    all_paramodulants_from_clause (mkClause [] none none none)
        ⟨true, .Pred EQUALITY_SYMBOL_ID [.Func 1 [], .Func 2 []]⟩
        (mkClause [] none none none) ⟨false, .Pred 5 []⟩ =
      .error .invalidRuleApplication ∧
    all_paramodulants_from_clause (mkClause [] none none none)
        ⟨false, .Pred EQUALITY_SYMBOL_ID [.Func 1 [], .Func 1 []]⟩
        (mkClause [] none none none) ⟨false, .Pred 5 []⟩ = .ok [] :=
  ⟨(c5_paramodulants_equality_precondition _ _ _ _ _ _ rfl).1 (Or.inl rfl),
   (c5_paramodulants_equality_precondition _ _ _ _ _ _ rfl).2 _ _ rfl rfl rfl rfl⟩

/-- C6: every clause returned by `factoring` and by `paramodulation` has a
duplicate-free literal collection, also when applying the mgu bindings
collapses previously distinct literals (rebuilding always goes through the
deduplicating clause construction). -/
theorem c6_literals_deduplicated :
    (∀ (c : Clause) (l1 l2 : Literal) (out : Clause),
      factoring c l1 l2 = .ok out → out.literals.Nodup) ∧
    (∀ (c1 : Clause) (st : Proposition × Proposition) (c2 : Clause)
      (l2 : Literal) (k : Nat) (out : Clause),
      paramodulation c1 st c2 l2 k = .ok out → out.literals.Nodup) := by
  constructor
  · intro c l1 l2 out h
    unfold factoring at h
    split at h
    · simp at h
    · cases hm : most_general_unifier [l1.atom, l2.atom] with
      | error e => rw [hm] at h; simp at h
      | ok subs =>
        rw [hm] at h
        simp only [Except.ok.injEq] at h
        subst h
        exact foldl_substitute_nodup subs _ (mkClause_nodup _ _ _ _)
  · intro c1 st c2 l2 k out h
    unfold paramodulation at h
    cases hsub : subterm_by_index l2.atom k with
    | none => rw [hsub] at h; simp at h
    | some sub =>
      rw [hsub] at h
      dsimp only at h
      cases hm : most_general_unifier [st.1, sub] with
      | error e => rw [hm] at h; simp at h
      | ok subs =>
        rw [hm] at h
        dsimp only at h
        cases hrep : replace_subterm_by_index l2.atom k st.2 with
        | error e => rw [hrep] at h; simp at h
        | ok new_atom =>
          rw [hrep] at h
          simp only [Except.ok.injEq] at h
          subst h
          exact foldl_substitute_nodup subs _ (mkClause_nodup _ _ _ _)

/-- Witness for C6 at the concrete factoring and paramodulation runs of the
source doctests. -/
theorem c6_literals_deduplicated_witness :
    factoring (mkClause [⟨true, .Pred 8 [.Var 0]⟩] none none none)
        ⟨false, .Pred 9 [.Var 0]⟩ ⟨false, .Pred 9 [.Func 0 []]⟩ =
      .ok ⟨[⟨true, .Pred 8 [.Func 0 []]⟩, ⟨false, .Pred 9 [.Func 0 []]⟩],
        none, none, none⟩ ∧
    ([(⟨true, .Pred 8 [.Func 0 []]⟩ : Literal), ⟨false, .Pred 9 [.Func 0 []]⟩]).Nodup ∧
    paramodulation (mkClause [⟨false, .Pred 8 [.Var 0]⟩] none none none)
        (.Var 0, .Func 7 []) (mkClause [⟨false, .Pred 9 [.Var 0]⟩] none none none)
        ⟨true, .Pred 10 [.Func 0 []]⟩ 1 =
      .ok ⟨[⟨true, .Pred 10 [.Func 7 []]⟩, ⟨false, .Pred 8 [.Func 0 []]⟩,
        ⟨false, .Pred 9 [.Func 0 []]⟩], none, none, none⟩ ∧
    ([(⟨true, .Pred 10 [.Func 7 []]⟩ : Literal), ⟨false, .Pred 8 [.Func 0 []]⟩,
      ⟨false, .Pred 9 [.Func 0 []]⟩]).Nodup :=
  ⟨by rfl,
   c6_literals_deduplicated.1 (mkClause [⟨true, .Pred 8 [.Var 0]⟩] none none none)
     ⟨false, .Pred 9 [.Var 0]⟩ ⟨false, .Pred 9 [.Func 0 []]⟩
     ⟨[⟨true, .Pred 8 [.Func 0 []]⟩, ⟨false, .Pred 9 [.Func 0 []]⟩], none, none, none⟩
     (by rfl),
   by rfl,
   c6_literals_deduplicated.2 (mkClause [⟨false, .Pred 8 [.Var 0]⟩] none none none)
     (.Var 0, .Func 7 []) (mkClause [⟨false, .Pred 9 [.Var 0]⟩] none none none)
     ⟨true, .Pred 10 [.Func 0 []]⟩ 1
     ⟨[⟨true, .Pred 10 [.Func 7 []]⟩, ⟨false, .Pred 8 [.Func 0 []]⟩,
       ⟨false, .Pred 9 [.Func 0 []]⟩], none, none, none⟩
     (by rfl)⟩

/-- C7: every successful unification step (a found disagreement whose
proposed binding passes the occurs-check) strictly reduces the number of
distinct variables across the proposition set, and consequently the
fuel-indexed loop of `most_general_unifier` always terminates within the
canonical fuel on every finite input. -/
theorem c7_step_decrease_and_termination :
    (∀ (p0 p1 : Proposition) (rest : List Proposition) (d0 d1 : Proposition)
      (s : Substitution), get_disagreement p0 p1 = some (d0, d1) →
      propose_substitution d0 d1 p0 p1 = .ok s →
      distinctVarCount (((p0 :: p1 :: rest).map s.apply).dedup) <
        distinctVarCount (p0 :: p1 :: rest)) ∧
    (∀ (props : List Proposition) (subs : List Substitution),
      (mguFuel (unifierFuel props) props subs).isSome = true) :=
  ⟨fun p0 p1 rest d0 d1 s hd hs => step_count_lt p0 p1 rest d0 d1 s hd hs,
   fun props subs => mguFuel_total_aux (distinctVarCount props) props subs le_rfl⟩

/-- Witness for C7: the concrete step binding `X0 ↦ f1` drops the distinct
variable count from one to zero, and the loop completes at the canonical
fuel. -/
theorem c7_step_decrease_and_termination_witness :
    get_disagreement (.Var 0) (.Func 1 []) = some (.Var 0, .Func 1 []) ∧
    propose_substitution (.Var 0) (.Func 1 []) (.Var 0) (.Func 1 []) =
      .ok ⟨0, .Func 1 []⟩ ∧
    distinctVarCount ((([Proposition.Var 0, Proposition.Func 1 []]).map
      (Substitution.mk 0 (.Func 1 [])).apply).dedup) <
      distinctVarCount [Proposition.Var 0, Proposition.Func 1 []] ∧
    (mguFuel (unifierFuel [Proposition.Var 0, Proposition.Func 1 []])
      [Proposition.Var 0, Proposition.Func 1 []] []).isSome = true :=
  ⟨by rfl, by rfl,
   c7_step_decrease_and_termination.1 (.Var 0) (.Func 1 []) [] (.Var 0)
     (.Func 1 []) ⟨0, .Func 1 []⟩ (by rfl) (by rfl),
   c7_step_decrease_and_termination.2 [Proposition.Var 0, Proposition.Func 1 []] []⟩

/-- C8: in every unifier returned by `most_general_unifier`, no variable
bound by an earlier substitution occurs in the right-hand term of any later
substitution (stated as `List.Pairwise` over the sequence). -/
theorem c8_no_reintroduced_variables (props : List Proposition)
    (u : List Substitution) (h : most_general_unifier props = .ok u) :
    u.Pairwise (fun a b => is_subproposition a.variableIndex b.term = false) :=
  mguFuel_pairwise _ _ _ _ (most_general_unifier_ok h) List.Pairwise.nil
    (by intro s hs; simp at hs)

/-- Witness for C8 at a concrete run returning two substitutions. -/
theorem c8_no_reintroduced_variables_witness :
    most_general_unifier [.Pred 8 [.Var 0, .Var 1], .Pred 8 [.Func 1 [], .Func 2 []]] =
      .ok [⟨0, .Func 1 []⟩, ⟨1, .Func 2 []⟩] ∧
    ([(⟨0, .Func 1 []⟩ : Substitution), ⟨1, .Func 2 []⟩]).Pairwise
      (fun a b => is_subproposition a.variableIndex b.term = false) :=
  ⟨by rfl, c8_no_reintroduced_variables
    [.Pred 8 [.Var 0, .Var 1], .Pred 8 [.Func 1 [], .Func 2 []]] _ (by rfl)⟩

/-- C9: every clause returned by `all_possible_factors` carries the
inference rule `factoring` and exactly the given clause's label as its
single parent, and every clause returned by `all_paramodulants_from_list`
carries the inference rule `paramodulation` and exactly the pair of the
processed clause's label and the given clause's label. -/
theorem c9_provenance_tagging :
    (∀ (given_clause : Clause) (res : List Clause) (c : Clause),
      all_possible_factors given_clause = .ok res → c ∈ res →
      c.inference_rule = some "factoring" ∧
      c.inference_parents = some [given_clause.label]) ∧
    (∀ (clauses : List Clause) (given_clause : Clause) (res : List Clause)
      (c : Clause),
      all_paramodulants_from_list clauses given_clause = .ok res → c ∈ res →
      c.inference_rule = some "paramodulation" ∧
      ∃ oc ∈ clauses, c.inference_parents = some [oc.label, given_clause.label]) := by
  constructor
  · intro gc res c h hc
    obtain ⟨fs, rfl⟩ := all_possible_factors_ok h
    obtain ⟨f, hf, rfl⟩ := List.mem_map.mp hc
    exact ⟨rfl, rfl⟩
  · intro cls gc res c h hc
    obtain ⟨oc, hoc, p, rfl⟩ := paramodulantsPerClause_mem gc cls res h c hc
    exact ⟨rfl, oc, hoc, rfl⟩

/-- Witness for C9 at concrete factoring and paramodulation
enumerations. -/
theorem c9_provenance_tagging_witness :
    (⟨[⟨false, .Pred 9 []⟩, ⟨false, .Pred 8 [.Func 1 []]⟩], none,
        some [some "one"], some "factoring"⟩ : Clause).inference_rule =
      some "factoring" ∧
    (⟨[⟨false, .Pred 9 []⟩, ⟨false, .Pred 8 [.Func 1 []]⟩], none,
        some [some "one"], some "factoring"⟩ : Clause).inference_parents =
      some [(mkClause [⟨false, .Pred 8 [.Func 1 []]⟩, ⟨false, .Pred 8 [.Var 0]⟩,
        ⟨false, .Pred 9 []⟩] (some "one") none none).label] ∧
    (⟨[⟨false, .Pred 5 [.Func 1 []]⟩], none, some [some "one", some "two"],
        some "paramodulation"⟩ : Clause).inference_rule = some "paramodulation" ∧
    ∃ oc ∈ [mkClause [⟨false, .Pred EQUALITY_SYMBOL_ID [.Func 1 [], .Func 2 []]⟩]
        (some "one") none none],
      (⟨[⟨false, .Pred 5 [.Func 1 []]⟩], none, some [some "one", some "two"],
        some "paramodulation"⟩ : Clause).inference_parents =
        some [oc.label, (mkClause [⟨false, .Pred 5 [.Func 2 []]⟩]
          (some "two") none none).label] := by
  have hfact := c9_provenance_tagging.1
    (mkClause [⟨false, .Pred 8 [.Func 1 []]⟩, ⟨false, .Pred 8 [.Var 0]⟩,
      ⟨false, .Pred 9 []⟩] (some "one") none none)
    [⟨[⟨false, .Pred 9 []⟩, ⟨false, .Pred 8 [.Func 1 []]⟩], none,
      some [some "one"], some "factoring"⟩]
    ⟨[⟨false, .Pred 9 []⟩, ⟨false, .Pred 8 [.Func 1 []]⟩], none,
      some [some "one"], some "factoring"⟩ (by rfl) (by simp)
  have hpara := c9_provenance_tagging.2
    [mkClause [⟨false, .Pred EQUALITY_SYMBOL_ID [.Func 1 [], .Func 2 []]⟩]
      (some "one") none none]
    (mkClause [⟨false, .Pred 5 [.Func 2 []]⟩] (some "two") none none)
    [⟨[⟨false, .Pred 5 [.Func 1 []]⟩], none, some [some "one", some "two"],
      some "paramodulation"⟩]
    ⟨[⟨false, .Pred 5 [.Func 1 []]⟩], none, some [some "one", some "two"],
      some "paramodulation"⟩ (by rfl) (by simp)
  exact ⟨hfact.1, hfact.2, hpara.1, hpara.2⟩

/-- C10: `most_general_unifier` on the empty proposition sequence neither
returns a unifier nor raises `nonUnifiable`: the unguarded access to the
first element raises the index-out-of-range failure. -/
theorem c10_empty_input_index_error :
    most_general_unifier [] = .error .indexError := by
  rfl
